import Mathlib

/-!
Verification of the nix-mirror core against its specification.

The development shallowly embeds the two source files of the repository:

* `src/lib.rs` — identifier extraction (`filename_to_narinfo_hash`,
  `store_path_to_narinfo_hash`), the atomic verified download primitive
  (`download_atomically`) and the metadata resolver (`handle_narinfo`);
* `src/main.rs` — the wave-structured frontier scheduler in `main`.

Rust strings are modelled as `List Char` (`Str`), file contents as `Str`,
paths as lists of components (`List Str`), and the effectful parts
(HTTP transport, filesystem, temp files) as explicit environments and
filesystem maps threaded through the functions.
-/

/-! ## String primitives (models of the Rust `str` operations used) -/

abbrev Str := List Char

/-- Model of Rust `str::split(pred)`: splits at every character satisfying
`p`, keeping empty pieces (`"".split` yields one empty piece). -/
def splitOnP (p : Char → Bool) : Str → List Str
  | [] => [[]]
  | a :: rest =>
    if p a then [] :: splitOnP p rest
    else
      match splitOnP p rest with
      | [] => [[a]]
      | s :: ss => (a :: s) :: ss

/-- Model of Rust `str::split(c)` for a single character separator. -/
def splitOnChar (c : Char) (s : Str) : List Str :=
  splitOnP (fun a => a = c) s

/-- Model of Rust `str::split_whitespace`: whitespace-separated pieces with
all empty pieces discarded. -/
def splitWs (s : Str) : List Str :=
  (splitOnP Char.isWhitespace s).filter (fun x => x ≠ [])

/-- Split a string at the first occurrence of the substring `sep`,
returning the parts before and after it, or `none` when `sep` does not
occur.  Helper for the model of Rust `str::splitn(2, sep)`. -/
def splitFirstSub (sep : Str) : Str → Option (Str × Str)
  | [] => none
  | a :: rest =>
    match sep.isPrefixOf (a :: rest) with
    | true => some ([], (a :: rest).drop sep.length)
    | false => (splitFirstSub sep rest).map (fun pr => (a :: pr.1, pr.2))

/-- Model of Rust `str::splitn(2, sep)` (for non-empty `sep`): the part
before the first occurrence of `sep`, and — when `sep` occurs — the whole
remainder after it. -/
def splitn2 (sep s : Str) : Str × Option Str :=
  match splitFirstSub sep s with
  | none => (s, none)
  | some (p, q) => (p, some q)

/-- Model of Rust `BufRead::lines` on a whole file content: split at each
newline; a trailing newline terminates the last line instead of opening an
empty one. -/
def rustLines (s : Str) : List Str :=
  let parts := splitOnChar '\n' s
  match parts.getLast? with
  | some [] => parts.dropLast
  | _ => parts

/-- The `Ok` payload of an `Except`, when present. -/
def okValue? {ε α : Type} : Except ε α → Option α
  | .ok a => some a
  | .error _ => none

/-- Whether an `Except` is `Ok`. -/
def isOkB {ε α : Type} : Except ε α → Bool
  | .ok _ => true
  | .error _ => false

/-! ## Identifier extraction (`src/lib.rs`, `filename_to_narinfo_hash`
and `store_path_to_narinfo_hash`) -/

/-- Embedding of `filename_to_narinfo_hash`:
`filename.split('-').next().ok_or_else(...)`. -/
def filename_to_narinfo_hash (filename : Str) : Except Str Str :=
  match (splitOnChar '-' filename).head? with
  | some h => .ok h
  | none => .error (("failed to parse narinfo hash: ").toList ++ filename)

/-- Embedding of `store_path_to_narinfo_hash`:
`store_path.split('/').nth(3).ok_or_else(...).and_then(filename_to_narinfo_hash)`. -/
def store_path_to_narinfo_hash (store_path : Str) : Except Str Str :=
  match (splitOnChar '/' store_path).get? 3 with
  | some comp => filename_to_narinfo_hash comp
  | none => .error (("failed to parse store_path: ").toList ++ store_path)

/-! ### Structural lemmas about splitting -/

theorem splitOnP_ne_nil (p : Char → Bool) (s : Str) : splitOnP p s ≠ [] := by
  cases s with
  | nil => simp [splitOnP]
  | cons a rest =>
    simp only [splitOnP]
    by_cases h : p a
    · simp [h]
    · simp only [h]
      cases hrec : splitOnP p rest <;> simp

theorem splitOnP_head (p : Char → Bool) (s : Str) :
    (splitOnP p s).head? = some (s.takeWhile (fun a => !p a)) := by
  induction s with
  | nil => rfl
  | cons a rest ih =>
    by_cases h : p a = true
    · simp [splitOnP, h, List.takeWhile]
    · have h' : p a = false := by simpa using h
      cases hrec : splitOnP p rest with
      | nil => exact absurd hrec (splitOnP_ne_nil p rest)
      | cons s ss =>
        have hs : s = rest.takeWhile (fun a => !p a) := by
          rw [hrec] at ih; simpa using ih
        simp [splitOnP, h', hrec, List.takeWhile, hs]

theorem filename_to_narinfo_hash_eq (filename : Str) :
    filename_to_narinfo_hash filename = .ok (filename.takeWhile (fun a => !(a = '-'))) := by
  rw [filename_to_narinfo_hash, splitOnChar, splitOnP_head]

/-- Claim C2 (counterexample): on the spec's own example `"/store/0001xyz-pkg-1.0.drv"`
the code does NOT return the PackageId `"0001xyz"` — it returns an error, because the
implementation indexes the fourth `/`-separated component (index 3), which this
three-component input does not have. -/
theorem store_path_spec_example_refuted :
    okValue? (store_path_to_narinfo_hash ("/store/0001xyz-pkg-1.0.drv").toList) = none
    ∧ some (("0001xyz").toList) ≠
        okValue? (store_path_to_narinfo_hash ("/store/0001xyz-pkg-1.0.drv").toList) := by
  constructor
  · rfl
  · intro h
    simp [store_path_to_narinfo_hash, okValue?] at h
    revert h
    decide

/-- Claim C2 (amended): `store_path_to_narinfo_hash` returns the substring before the
first `-` of the FOURTH `/`-separated component (index 3) of the input, and errors when
the input has fewer than four `/`-separated components; in particular
`"/nix/store/0001xyz-pkg-1.0.drv"` yields `"0001xyz"` while the spec's example
`"/store/0001xyz-pkg-1.0.drv"` yields an error. -/
theorem store_path_hash_fourth_component :
    (∀ s comp, (splitOnChar '/' s).get? 3 = some comp →
        store_path_to_narinfo_hash s = .ok (comp.takeWhile (fun a => !(a = '-'))))
    ∧ (∀ s, (splitOnChar '/' s).get? 3 = none →
        isOkB (store_path_to_narinfo_hash s) = false)
    ∧ store_path_to_narinfo_hash ("/nix/store/0001xyz-pkg-1.0.drv").toList
        = .ok (("0001xyz").toList)
    ∧ isOkB (store_path_to_narinfo_hash ("/store/0001xyz-pkg-1.0.drv").toList) = false := by
  refine ⟨?_, ?_, by rfl, by rfl⟩
  · intro s comp h
    rw [store_path_to_narinfo_hash, h]
    exact filename_to_narinfo_hash_eq comp
  · intro s h
    rw [store_path_to_narinfo_hash, h]
    rfl

/-- Instantiation of `store_path_hash_fourth_component` at concrete inputs. -/
theorem store_path_hash_fourth_component_inst :
    store_path_to_narinfo_hash ("/nix/store/aa-bb").toList
      = .ok (("aa-bb").toList.takeWhile (fun a => !(a = '-')))
    ∧ isOkB (store_path_to_narinfo_hash ("ab").toList) = false :=
  ⟨store_path_hash_fourth_component.1 (("/nix/store/aa-bb").toList) (("aa-bb").toList) rfl,
   store_path_hash_fourth_component.2.1 (("ab").toList) rfl⟩

/-! ## The narinfo parser (`src/lib.rs`, parsing loop of `handle_narinfo`) -/

/-- The separator `": "` used by the `key: value` line format. -/
def colonSpace : Str := [':', ' ']

/-- The mutable parse state of the loop in `handle_narinfo`:
`url` and `filehash` start out as the errors reported when the
corresponding key is never seen; `references` starts out empty. -/
structure ParseSt where
  url : Except String Str
  references : List Str
  filehash : Except String Str
deriving Repr

/-- Initial parse state (`let mut url = Err(...)`, `let mut references = Vec::new()`,
`let mut filehash = Err(...)`). -/
def initSt : ParseSt :=
  ⟨.error "failed to find URL", [], .error "failed to find filehash"⟩

/-- Embedding of one iteration of the `while let Some(line)` parsing loop:
`line.splitn(2, ": ")` gives the key (always present) and the value
(absent ⇒ the loop errors with "failed to find val"); recognized keys
update the state, unknown keys are ignored. -/
def parseLine (st : ParseSt) (line : Str) : Except String ParseSt :=
  match splitn2 colonSpace line with
  | (_, none) => .error "failed to find val"
  | (key, some val) =>
    if key = ("URL").toList then .ok { st with url := .ok val }
    else if key = ("References").toList then
      .ok { st with references :=
        (splitWs val).filterMap (fun x => (splitOnChar '-' x).head?) }
    else if key = ("FileHash").toList then
      .ok { st with filehash :=
        match (splitOnChar ':' val).get? 1 with
        | some d => .ok d
        | none => .error "invalid filehash" }
    else .ok st

/-- The parsing loop folded over all lines of the document. -/
def parseLoop : ParseSt → List Str → Except String ParseSt
  | st, [] => .ok st
  | st, l :: ls =>
    match parseLine st l with
    | .error e => .error e
    | .ok st' => parseLoop st' ls

/-- Embedding of the whole parsing phase of `handle_narinfo`: run the loop,
then `let url = url?; let filehash = filehash?` and return
`(url, references, filehash)`. -/
def parseNarinfo (lns : List Str) : Except String (Str × List Str × Str) :=
  match parseLoop initSt lns with
  | .error e => .error e
  | .ok st =>
    match st.url with
    | .error e => .error e
    | .ok u =>
      match st.filehash with
      | .error e => .error e
      | .ok fh => .ok (u, st.references, fh)

/-- The key of a line, when the line contains the `": "` separator
(so that the loop's `split.next()` for the value succeeds). -/
def lineKey? (l : Str) : Option Str :=
  match splitn2 colonSpace l with
  | (k, some _) => some k
  | (_, none) => none

theorem parseLine_url_stable (st : ParseSt) (l : Str) (st' : ParseSt)
    (hok : parseLine st l = .ok st') (hk : lineKey? l ≠ some (("URL").toList)) :
    st'.url = st.url := by
  rw [parseLine] at hok
  rw [lineKey?] at hk
  cases hsp : splitn2 colonSpace l with
  | mk k ov =>
    rw [hsp] at hok hk
    cases ov with
    | none => exact absurd hok (by simp)
    | some val =>
      simp only at hok hk
      by_cases h1 : k = ("URL").toList
      · exact absurd (congrArg some h1) hk
      · rw [if_neg h1] at hok
        by_cases h2 : k = ("References").toList
        · rw [if_pos h2] at hok
          cases hok; rfl
        · rw [if_neg h2] at hok
          by_cases h3 : k = ("FileHash").toList
          · rw [if_pos h3] at hok
            cases hok; rfl
          · rw [if_neg h3] at hok
            cases hok; rfl

theorem parseLine_filehash_stable (st : ParseSt) (l : Str) (st' : ParseSt)
    (hok : parseLine st l = .ok st') (hk : lineKey? l ≠ some (("FileHash").toList)) :
    st'.filehash = st.filehash := by
  rw [parseLine] at hok
  rw [lineKey?] at hk
  cases hsp : splitn2 colonSpace l with
  | mk k ov =>
    rw [hsp] at hok hk
    cases ov with
    | none => exact absurd hok (by simp)
    | some val =>
      simp only at hok hk
      by_cases h1 : k = ("URL").toList
      · rw [if_pos h1] at hok; cases hok; rfl
      · rw [if_neg h1] at hok
        by_cases h2 : k = ("References").toList
        · rw [if_pos h2] at hok; cases hok; rfl
        · rw [if_neg h2] at hok
          by_cases h3 : k = ("FileHash").toList
          · exact absurd (congrArg some h3) hk
          · rw [if_neg h3] at hok; cases hok; rfl

theorem parseLine_references_stable (st : ParseSt) (l : Str) (st' : ParseSt)
    (hok : parseLine st l = .ok st') (hk : lineKey? l ≠ some (("References").toList)) :
    st'.references = st.references := by
  rw [parseLine] at hok
  rw [lineKey?] at hk
  cases hsp : splitn2 colonSpace l with
  | mk k ov =>
    rw [hsp] at hok hk
    cases ov with
    | none => exact absurd hok (by simp)
    | some val =>
      simp only at hok hk
      by_cases h1 : k = ("URL").toList
      · rw [if_pos h1] at hok; cases hok; rfl
      · rw [if_neg h1] at hok
        by_cases h2 : k = ("References").toList
        · exact absurd (congrArg some h2) hk
        · rw [if_neg h2] at hok
          by_cases h3 : k = ("FileHash").toList
          · rw [if_pos h3] at hok; cases hok; rfl
          · rw [if_neg h3] at hok; cases hok; rfl

theorem parseLoop_url_origin (lns : List Str) :
    ∀ st st', parseLoop st lns = .ok st' → isOkB st'.url = true →
      isOkB st.url = true ∨ ∃ l ∈ lns, lineKey? l = some (("URL").toList) := by
  induction lns with
  | nil =>
    intro st st' h hok
    cases h
    exact .inl hok
  | cons l ls ih =>
    intro st st' h hok
    rw [parseLoop] at h
    cases hline : parseLine st l with
    | error e => rw [hline] at h; exact absurd h (by simp)
    | ok st2 =>
      rw [hline] at h
      rcases ih st2 st' h hok with h2 | ⟨l', hl', hk⟩
      · by_cases hkey : lineKey? l = some (("URL").toList)
        · exact .inr ⟨l, List.mem_cons_self l ls, hkey⟩
        · rw [parseLine_url_stable st l st2 hline hkey] at h2
          exact .inl h2
      · exact .inr ⟨l', List.mem_cons_of_mem l hl', hk⟩

theorem parseLoop_filehash_origin (lns : List Str) :
    ∀ st st', parseLoop st lns = .ok st' → isOkB st'.filehash = true →
      isOkB st.filehash = true ∨ ∃ l ∈ lns, lineKey? l = some (("FileHash").toList) := by
  induction lns with
  | nil =>
    intro st st' h hok
    cases h
    exact .inl hok
  | cons l ls ih =>
    intro st st' h hok
    rw [parseLoop] at h
    cases hline : parseLine st l with
    | error e => rw [hline] at h; exact absurd h (by simp)
    | ok st2 =>
      rw [hline] at h
      rcases ih st2 st' h hok with h2 | ⟨l', hl', hk⟩
      · by_cases hkey : lineKey? l = some (("FileHash").toList)
        · exact .inr ⟨l, List.mem_cons_self l ls, hkey⟩
        · rw [parseLine_filehash_stable st l st2 hline hkey] at h2
          exact .inl h2
      · exact .inr ⟨l', List.mem_cons_of_mem l hl', hk⟩

theorem parseLoop_references_stable (lns : List Str) :
    ∀ st st', parseLoop st lns = .ok st' →
      (∀ l ∈ lns, lineKey? l ≠ some (("References").toList)) →
      st'.references = st.references := by
  induction lns with
  | nil =>
    intro st st' h _
    cases h
    rfl
  | cons l ls ih =>
    intro st st' h hab
    rw [parseLoop] at h
    cases hline : parseLine st l with
    | error e => rw [hline] at h; exact absurd h (by simp)
    | ok st2 =>
      rw [hline] at h
      have h1 := ih st2 st' h (fun l' hl' => hab l' (List.mem_cons_of_mem l hl'))
      rw [h1]
      exact parseLine_references_stable st l st2 hline (hab l (List.mem_cons_self l ls))

/-- Claim C4 (confirmed): after parsing all lines, a successful parse implies a
`URL` line and a `FileHash` line were encountered; a document without any
`References` line parses (when otherwise well-formed) with an empty reference
collection — its absence is not an error. -/
theorem parse_requires_url_and_filehash :
    (∀ lns r, parseNarinfo lns = .ok r →
        (∃ l ∈ lns, lineKey? l = some (("URL").toList))
        ∧ (∃ l ∈ lns, lineKey? l = some (("FileHash").toList)))
    ∧ (∀ lns u refs fh, (∀ l ∈ lns, lineKey? l ≠ some (("References").toList)) →
        parseNarinfo lns = .ok (u, refs, fh) → refs = [])
    ∧ parseNarinfo (rustLines ("URL: u\nFileHash: sha256:d\n").toList)
        = .ok (("u").toList, [], ("d").toList) := by
  refine ⟨?_, ?_, by rfl⟩
  · intro lns r h
    simp only [parseNarinfo] at h
    cases hloop : parseLoop initSt lns with
    | error e =>
      simp only [hloop] at h
      exact Except.noConfusion h
    | ok st =>
      simp only [hloop] at h
      cases hu : st.url with
      | error e =>
        simp only [hu] at h
        exact Except.noConfusion h
      | ok u =>
        cases hfh : st.filehash with
        | error e =>
          simp only [hu, hfh] at h
          exact Except.noConfusion h
        | ok fh =>
          constructor
          · rcases parseLoop_url_origin lns initSt st hloop (by rw [hu]; rfl)
              with h1 | h1
            · simp [initSt, isOkB] at h1
            · exact h1
          · rcases parseLoop_filehash_origin lns initSt st hloop (by rw [hfh]; rfl)
              with h1 | h1
            · simp [initSt, isOkB] at h1
            · exact h1
  · intro lns u refs fh habs h
    simp only [parseNarinfo] at h
    cases hloop : parseLoop initSt lns with
    | error e =>
      simp only [hloop] at h
      exact Except.noConfusion h
    | ok st =>
      simp only [hloop] at h
      cases hu : st.url with
      | error e =>
        simp only [hu] at h
        exact Except.noConfusion h
      | ok u' =>
        cases hfh : st.filehash with
        | error e =>
          simp only [hu, hfh] at h
          exact Except.noConfusion h
        | ok fh' =>
          simp only [hu, hfh, Except.ok.injEq, Prod.mk.injEq] at h
          rw [← h.2.1, parseLoop_references_stable lns initSt st hloop habs]
          rfl

/-- Instantiation of `parse_requires_url_and_filehash` at a concrete document. -/
theorem parse_requires_url_and_filehash_inst :
    (∃ l ∈ [("URL: u").toList, ("FileHash: a:b").toList],
        lineKey? l = some (("URL").toList))
    ∧ (∃ l ∈ [("URL: u").toList, ("FileHash: a:b").toList],
        lineKey? l = some (("FileHash").toList)) :=
  parse_requires_url_and_filehash.1
    [("URL: u").toList, ("FileHash: a:b").toList]
    ((("u").toList, [], ("b").toList)) rfl

theorem splitOnP_append_sep (p : Char → Bool) (a : Str) (c : Char) (r : Str)
    (ha : ∀ x ∈ a, p x = false) (hc : p c = true) :
    splitOnP p (a ++ c :: r) = a :: splitOnP p r := by
  induction a with
  | nil => simp [splitOnP, hc]
  | cons x a' ih =>
    have hx : p x = false := ha x (List.mem_cons_self x a')
    have ih' := ih (fun y hy => ha y (List.mem_cons_of_mem x hy))
    have hstep : splitOnP p (x :: (a' ++ c :: r))
        = match splitOnP p (a' ++ c :: r) with
          | [] => [[x]]
          | s :: ss => (x :: s) :: ss := by
      simp [splitOnP, hx]
    rw [List.cons_append, hstep, ih']

/-- `line.splitn(2, ": ")` on a line `"FileHash: " ++ v` always yields the key
`"FileHash"` and the value `v` (the prefix contains no earlier `": "`). -/
theorem splitn2_fileHash_line (v : Str) :
    splitn2 colonSpace (("FileHash: ").toList ++ v) = (("FileHash").toList, some v) := by
  simp [splitn2, splitFirstSub, List.isPrefixOf, colonSpace]

/-- Claim C5 (counterexample): for the FileHash value `"sha256:ab:cd"` (of the
form `algorithm:digest` with digest `"ab:cd"`) the parser retains `"ab"`, the
second colon-separated field — NOT the entire portion `"ab:cd"` after the first
colon. -/
theorem filehash_after_first_colon_refuted :
    okValue? (parseNarinfo (rustLines (("URL: u\nFileHash: sha256:ab:cd\n").toList)))
      = some ((("u").toList, [], ("ab").toList))
    ∧ ("ab").toList ≠ ("ab:cd").toList :=
  ⟨rfl, by decide⟩

/-- Claim C5 (amended): the content digest retained by the parser is the second
colon-separated field of the FileHash value — the portion after the first colon
truncated at the next colon, if any; when the digest itself contains no colon
this is the entire portion after the first colon, and it is the string later
passed as the expected digest to `download_atomically`. -/
theorem filehash_digest_second_field :
    (∀ st val d, (splitOnChar ':' val).get? 1 = some d →
        parseLine st (("FileHash: ").toList ++ val) = .ok { st with filehash := .ok d })
    ∧ (∀ algo digest, ':' ∉ algo →
        (splitOnChar ':' (algo ++ ':' :: digest)).get? 1
          = some (digest.takeWhile (fun x => !(x = ':'))))
    ∧ (∀ algo digest, ':' ∉ algo → ':' ∉ digest →
        (splitOnChar ':' (algo ++ ':' :: digest)).get? 1 = some digest) := by
  have hsplit : ∀ algo digest : Str, ':' ∉ algo →
      (splitOnChar ':' (algo ++ ':' :: digest)).get? 1
        = some (digest.takeWhile (fun x => !(x = ':'))) := by
    intro algo digest halgo
    rw [splitOnChar, splitOnP_append_sep _ algo ':' digest
      (fun x hx => decide_eq_false (fun (he : x = ':') => halgo (he ▸ hx))) rfl]
    rw [List.get?_cons_succ, List.get?_zero]
    exact splitOnP_head _ digest
  refine ⟨?_, hsplit, ?_⟩
  · intro st val d h
    simp only [parseLine, splitn2_fileHash_line]
    rw [if_pos trivial, h, if_neg (by decide), if_neg (by decide)]
  · intro algo digest halgo hdig
    rw [hsplit algo digest halgo]
    have hself : List.takeWhile (fun x => !(x = ':')) digest = digest :=
      List.takeWhile_eq_self_iff.mpr
        (fun x hx => by simpa using fun (he : x = ':') => hdig (he ▸ hx))
    rw [hself]

/-- Instantiation of `filehash_digest_second_field` at concrete inputs. -/
theorem filehash_digest_second_field_inst :
    parseLine initSt (("FileHash: ").toList ++ ("sha256:zz").toList)
      = .ok { initSt with filehash := .ok (("zz").toList) }
    ∧ (splitOnChar ':' (("sha").toList ++ ':' :: ("zz").toList)).get? 1
        = some (("zz").toList) :=
  ⟨filehash_digest_second_field.1 initSt (("sha256:zz").toList) (("zz").toList) rfl,
   filehash_digest_second_field.2.2 (("sha").toList) (("zz").toList)
     (by decide) (by decide)⟩

/-- Claim C7 (confirmed): the spec's reference-parsing example — the metadata
text parses to `content_url = "nar/abc.nar.xz"`, references `"aaaa"` and
`"bbbb"` (each token reduced to its part before the first `-`), and
`content_digest = "deadbeef"`. -/
theorem reference_parsing_example :
    parseNarinfo (rustLines
        ("URL: nar/abc.nar.xz\nReferences: aaaa-foo bbbb-bar\nFileHash: sha256:deadbeef\n").toList)
      = .ok (("nar/abc.nar.xz").toList,
             [("aaaa").toList, ("bbbb").toList],
             ("deadbeef").toList) := rfl

/-! ## The verified atomic fetcher (`src/lib.rs`, `download_atomically`)

The effectful parts are modelled explicitly: a path is a list of components,
the filesystem is a map from paths to file contents, and the HTTP transport,
temp-file creation and the fallible file operations are an environment of
outcomes.  File contents are `Str` (bytes as characters); the SHA-256 +
nix-base32 digest pipeline is a parameter `hashFn` (the claims under
verification do not depend on which function it is, only on how its output
is compared). -/

/-- A filesystem path, as its list of components. -/
abbrev FsPath := List Str

/-- A filesystem: which content, if any, lives at each path. -/
abbrev Fs := FsPath → Option Str

/-- Model of `Path::parent`: `none` for a path without components (the case in
which `destination.parent().unwrap()` panics), otherwise the path minus its
last component. -/
def pathParent (p : FsPath) : Option FsPath :=
  match p with
  | [] => none
  | _ :: _ => some p.dropLast

/-- One item of the response byte stream, together with the outcome of
writing it to the scratch file: the stream read itself can fail
(`resp_stream.next()` yielding `Err`), the `write_all` can fail, or the
chunk is processed successfully. -/
inductive ChunkEvent where
  | readErr : ChunkEvent
  | writeErr (bytes : Str) : ChunkEvent
  | ok (bytes : Str) : ChunkEvent
deriving Repr, DecidableEq

/-- Environment of effect outcomes for one `download_atomically` call:
the transport result (`send` + `error_for_status`, carrying the chunk
stream on success), and whether temp-file creation, `shutdown`,
`persist` and the final `seek` succeed. -/
structure DlEnv where
  transport : Except String (List ChunkEvent)
  tempfileOk : Bool
  shutdownOk : Bool
  persistOk : Bool
  seekOk : Bool

/-- The `while let Some(bytes) = resp_stream.next()` loop: each successful
chunk is appended to both the hash accumulator and the scratch file (their
contents coincide, so one accumulator models both); a read or write failure
aborts with that error. -/
def processChunks : List ChunkEvent → Str → Except String Str
  | [], acc => .ok acc
  | .readErr :: _, _ => .error "stream read error"
  | .writeErr _ :: _, _ => .error "file write error"
  | .ok bs :: rest, acc => processChunks rest (acc ++ bs)

/-- The pipeline of `download_atomically` up to (and including) the digest
check, before the temp file is persisted: transport, temp-file creation,
the chunk loop, `shutdown`, and — when an expected digest was supplied —
the comparison of `hashFn` of the streamed bytes against it. -/
def dlCompute (hashFn : Str → Str) (env : DlEnv) (hash : Option Str) :
    Except String Str :=
  match env.transport with
  | .error e => .error e
  | .ok events =>
    if env.tempfileOk then
      match processChunks events [] with
      | .error e => .error e
      | .ok content =>
        if env.shutdownOk then
          match hash with
          | none => .ok content
          | some h => if hashFn content = h then .ok content else .error "hash mismatch"
        else .error "shutdown failed"
    else .error "tempfile creation failed"

/-- The observable outcome of a `download_atomically` call: the returned
result (on success, the content of the file handle it returns), the
filesystem afterwards, and whether the scratch temp file is still on disk
(`NamedTempFile` is deleted on drop on every early return, and consumed by
`persist` on the success path, so it never survives). -/
structure DlOutcome where
  result : Except String Str
  fs : Fs
  scratchLeaked : Bool

/-- Embedding of `download_atomically`.  `none` models the panic of
`destination.parent().unwrap()`.  The destination is only modified by
`tempfile.persist(&destination)`: when `persist` succeeds the full content
appears there atomically; note that the subsequent `f.seek(...)` can still
fail, in which case the call reports an error although the persisted file
is already visible.  The `url` argument is carried for signature fidelity;
the network response lives in `env.transport`. -/
def download_atomically (hashFn : Str → Str) (env : DlEnv) (url : Str)
    (destination : FsPath) (hash : Option Str) (fs : Fs) : Option DlOutcome :=
  match pathParent destination with
  | none => none
  | some _ =>
    some (
      match dlCompute hashFn env hash with
      | .error e => { result := .error e, fs := fs, scratchLeaked := false }
      | .ok content =>
        if env.persistOk then
          let fs' : Fs := fun p => if p = destination then some content else fs p
          if env.seekOk then
            { result := .ok content, fs := fs', scratchLeaked := false }
          else
            { result := .error "seek failed", fs := fs', scratchLeaked := false }
        else
          { result := .error "persist failed", fs := fs, scratchLeaked := false })

theorem download_atomically_ok (hashFn : Str → Str) (env : DlEnv) (url : Str)
    (destination : FsPath) (hash : Option Str) (fs : Fs) (out : DlOutcome) (c : Str)
    (hout : download_atomically hashFn env url destination hash fs = some out)
    (hres : out.result = .ok c) :
    out.fs destination = some c
    ∧ (∀ p, p ≠ destination → out.fs p = fs p)
    ∧ dlCompute hashFn env hash = .ok c := by
  rw [download_atomically] at hout
  cases hpar : pathParent destination with
  | none => rw [hpar] at hout; exact Option.noConfusion hout
  | some d =>
    rw [hpar] at hout
    cases hcomp : dlCompute hashFn env hash with
    | error e =>
      rw [hcomp] at hout
      cases hout
      exact absurd hres (by simp)
    | ok content =>
      rw [hcomp] at hout
      simp only at hout
      by_cases hp : env.persistOk = true
      · rw [if_pos hp] at hout
        by_cases hsk : env.seekOk = true
        · rw [if_pos hsk] at hout
          cases hout
          have : content = c := by
            simpa using hres
          subst this
          exact ⟨by simp, fun p hpne => by simp [hpne], rfl⟩
        · rw [if_neg hsk] at hout
          cases hout
          exact absurd hres (by simp)
      · rw [if_neg hp] at hout
        cases hout
        exact absurd hres (by simp)

/-- Claim C1 (counterexample): a call of `download_atomically` in which
everything succeeds except the final `seek` on the already-persisted file
returns an error, yet the previously-absent destination now holds the
downloaded content — a failure path on which the destination is NOT left
untouched. -/
theorem download_failure_untouched_refuted :
    (download_atomically (fun _ => []) ⟨.ok [.ok (("bytes").toList)], true, true, true, false⟩
        [] [("d").toList, ("f").toList] none (fun _ => none)).map
        (fun out => (isOkB out.result, out.fs [("d").toList, ("f").toList]))
      = some (false, some (("bytes").toList))
    ∧ some (("bytes").toList) ≠ (none : Option Str) :=
  ⟨rfl, by decide⟩

/-- Claim C1 (amended): on every failing `download_atomically` call the scratch
temp file is released, and the destination is left untouched — EXCEPT when the
failure is the final rewind (`seek`) of the returned handle, which happens
after `persist` has already atomically moved the complete (and, if requested,
digest-verified) file into place; in particular a digest mismatch always
returns the hash-verification error with the destination untouched, because
the check precedes `persist`. -/
theorem download_failure_leaves_destination (hashFn : Str → Str) (env : DlEnv)
    (url : Str) (destination : FsPath) (hash : Option Str) (fs : Fs) (out : DlOutcome)
    (hout : download_atomically hashFn env url destination hash fs = some out) :
    out.scratchLeaked = false
    ∧ (∀ e, out.result = .error e →
        (∀ p, out.fs p = fs p) ∨ (env.persistOk = true ∧ env.seekOk = false))
    ∧ (∀ D events content,
        hash = some D → env.transport = .ok events → env.tempfileOk = true →
        processChunks events [] = .ok content → env.shutdownOk = true →
        hashFn content ≠ D →
        out.result = .error "hash mismatch" ∧ ∀ p, out.fs p = fs p) := by
  rw [download_atomically] at hout
  cases hpar : pathParent destination with
  | none => rw [hpar] at hout; exact Option.noConfusion hout
  | some d =>
    rw [hpar] at hout
    refine ⟨?_, ?_, ?_⟩
    · cases hcomp : dlCompute hashFn env hash with
      | error e => rw [hcomp] at hout; cases hout; rfl
      | ok content =>
        rw [hcomp] at hout
        simp only at hout
        by_cases hp : env.persistOk = true
        · rw [if_pos hp] at hout
          by_cases hsk : env.seekOk = true
          · rw [if_pos hsk] at hout; cases hout; rfl
          · rw [if_neg hsk] at hout; cases hout; rfl
        · rw [if_neg hp] at hout; cases hout; rfl
    · intro e hres
      cases hcomp : dlCompute hashFn env hash with
      | error e' =>
        rw [hcomp] at hout; cases hout
        exact .inl (fun p => rfl)
      | ok content =>
        rw [hcomp] at hout
        simp only at hout
        by_cases hp : env.persistOk = true
        · rw [if_pos hp] at hout
          by_cases hsk : env.seekOk = true
          · rw [if_pos hsk] at hout; cases hout
            exact absurd hres (by simp)
          · rw [if_neg hsk] at hout
            exact .inr ⟨hp, by simpa using hsk⟩
        · rw [if_neg hp] at hout; cases hout
          exact .inl (fun p => rfl)
    · intro D events content hD htr htf hpc hsd hne
      have hdl : dlCompute hashFn env hash = .error "hash mismatch" := by
        simp only [dlCompute, hD, htr, htf, hpc, hsd, if_true]
        rw [if_neg hne]
      rw [hdl] at hout
      cases hout
      exact ⟨rfl, fun p => rfl⟩

/-- The outcome of a concrete digest-mismatch call of `download_atomically`. -/
def dlMismatchOut : DlOutcome :=
  (download_atomically (fun _ => ("x").toList)
      ⟨.ok [.ok (("bb").toList)], true, true, true, true⟩ [] [("d").toList, ("f").toList]
      (some (("y").toList)) (fun _ => none)).getD
    ⟨.error "", fun _ => none, true⟩

/-- Instantiation of `download_failure_leaves_destination` at a concrete
digest-mismatch call. -/
theorem download_failure_leaves_destination_inst :
    dlMismatchOut.result = .error "hash mismatch"
    ∧ dlMismatchOut.fs [("d").toList, ("f").toList] = none :=
  have h := (download_failure_leaves_destination (fun _ => ("x").toList)
      ⟨.ok [.ok (("bb").toList)], true, true, true, true⟩ [] [("d").toList, ("f").toList]
      (some (("y").toList)) (fun _ => none) dlMismatchOut rfl).2.2
      (("y").toList) [ChunkEvent.ok (("bb").toList)] (("bb").toList)
      rfl rfl rfl rfl rfl (by decide)
  ⟨h.1, h.2 [("d").toList, ("f").toList]⟩

/-! ## The metadata resolver (`src/lib.rs`, `handle_narinfo`) -/

/-- Model of `Path::set_extension(ext)` on one file-name component: replace
everything after the last `.` by `ext` when the name has an extension
(a `.` that is not the leading character of a hidden file), otherwise append
`.ext`. -/
def setExt (ext : Str) (name : Str) : Str :=
  match splitOnChar '.' name with
  | [] => name ++ '.' :: ext
  | [_] => name ++ '.' :: ext
  | p :: ps =>
    if p = [] ∧ ps.length = 1 then name ++ '.' :: ext
    else (List.intercalate ('.' :: []) ((p :: ps).dropLast)) ++ '.' :: ext

/-- `set_extension` applied to a path: rewrites the last component (and, like
Rust, does nothing when there is none). -/
def setExtPath (ext : Str) (p : FsPath) : FsPath :=
  match p.getLast? with
  | none => p
  | some name => p.dropLast ++ [setExt ext name]

/-- Model of the `path_clean` crate's `clean` on a component list: empty and
`.` components are dropped and `..` removes the preceding component (a
simplification of the crate's treatment of leading `..`s, which the mirror's
paths never produce). -/
def pathClean (p : FsPath) : FsPath :=
  p.foldl
    (fun acc c =>
      if c = [] ∨ c = ('.' :: []) then acc
      else if c = ('.' :: '.' :: []) then acc.dropLast
      else acc ++ [c])
    []

/-- Model of `Path::join` with a string argument: the argument is split into
its `/`-separated components and appended; an absolute argument replaces the
base, as in Rust. -/
def pathJoin (base : FsPath) (s : Str) : FsPath :=
  match s with
  | '/' :: _ => splitOnChar '/' s
  | _ => base ++ splitOnChar '/' s

/-- The narinfo file path: `mirror_dir.join(&narinfo_hash)` with extension set
to `narinfo`, then cleaned. -/
def narinfoPath (mirror_dir : FsPath) (narinfo_hash : Str) : FsPath :=
  pathClean (setExtPath (("narinfo").toList) (pathJoin mirror_dir narinfo_hash))

/-- The nar archive path: `mirror_dir.join(&url).clean()`. -/
def narFilePath (mirror_dir : FsPath) (url : Str) : FsPath :=
  pathClean (pathJoin mirror_dir url)

/-- `format!("{}/{}.narinfo", cache_url, narinfo_hash)`. -/
def narinfoUrl (cache_url narinfo_hash : Str) : Str :=
  cache_url ++ '/' :: (narinfo_hash ++ (".narinfo").toList)

/-- `format!("{}/{}", cache_url, url)`. -/
def narUrl (cache_url url : Str) : Str :=
  cache_url ++ '/' :: url

/-- Environment for one `handle_narinfo` call: which paths fail to open
(independently of existence — an existing but unreadable file also fails),
and the download environments for the narinfo fetch and the nar fetch. -/
structure HnEnv where
  openFails : FsPath → Bool
  dlNarinfo : DlEnv
  dlNar : DlEnv

/-- Model of `fs::File::open`: succeeds with the file's content unless the
file is absent or the environment makes the open fail. -/
def openFile (openFails : FsPath → Bool) (fs : Fs) (p : FsPath) : Option Str :=
  if openFails p then none else fs p

/-- First phase of `handle_narinfo`: `if let Ok(f) = fs::File::open(&narinfo_filename)`
use the opened file, `else` download it atomically (no digest check); yields
the narinfo content and the filesystem afterwards, or the download's error,
or `none` for a panic inside the download. -/
def hnStep1 (hashFn : Str → Str) (env : HnEnv) (cache_url : Str)
    (mirror_dir : FsPath) (narinfo_hash : Str) (fs : Fs) :
    Option (Except String Str × Fs) :=
  match openFile env.openFails fs (narinfoPath mirror_dir narinfo_hash) with
  | some content => some (.ok content, fs)
  | none =>
    match download_atomically hashFn env.dlNarinfo (narinfoUrl cache_url narinfo_hash)
        (narinfoPath mirror_dir narinfo_hash) none fs with
    | none => none
    | some out => some (out.result, out.fs)

/-- Embedding of `handle_narinfo`: obtain the narinfo content (opening the
local file or downloading it), parse it, then — only when opening the nar
archive fails — download the archive with the parsed digest as the expected
hash; returns the parsed references (a Vec, as in the code) and the
filesystem afterwards.  `none` models a panic. -/
def handle_narinfo (hashFn : Str → Str) (env : HnEnv) (cache_url : Str)
    (mirror_dir : FsPath) (narinfo_hash : Str) (fs : Fs) :
    Option (Except String (List Str) × Fs) :=
  match hnStep1 hashFn env cache_url mirror_dir narinfo_hash fs with
  | none => none
  | some (.error e, fs1) => some (.error e, fs1)
  | some (.ok content, fs1) =>
    match parseNarinfo (rustLines content) with
    | .error e => some (.error e, fs1)
    | .ok (u, references, filehash) =>
      match openFile env.openFails fs1 (narFilePath mirror_dir u) with
      | some _ => some (.ok references, fs1)
      | none =>
        match download_atomically hashFn env.dlNar (narUrl cache_url u)
            (narFilePath mirror_dir u) (some filehash) fs1 with
        | none => none
        | some out =>
          match out.result with
          | .error e => some (.error e, out.fs)
          | .ok _ => some (.ok references, out.fs)

/-- A narinfo document whose two References tokens reduce to the same
PackageId. -/
def dupRefsContent : Str :=
  ("URL: u\nReferences: aaaa-foo aaaa-bar\nFileHash: sha256:d\n").toList

/-- A filesystem holding that narinfo file and the nar archive it points to. -/
def dupRefsFs : Fs := fun p =>
  if p = narinfoPath [] (("h").toList) then some dupRefsContent
  else if p = [("u").toList] then some []
  else none

/-- An environment in which every open succeeds and no download is needed. -/
def dupRefsEnv : HnEnv :=
  ⟨fun _ => false,
   ⟨.error "unused", true, true, true, true⟩,
   ⟨.error "unused", true, true, true, true⟩⟩

/-- Claim C6 (counterexample): `handle_narinfo` on a document whose References
line is `"aaaa-foo aaaa-bar"` returns the list `["aaaa", "aaaa"]` — the
returned collection is a Vec that DOES contain duplicate identifiers. -/
theorem references_no_duplicates_refuted :
    (handle_narinfo (fun _ => []) dupRefsEnv (("c").toList) [] (("h").toList) dupRefsFs).map
        (fun pr => okValue? pr.1)
      = some (some [("aaaa").toList, ("aaaa").toList])
    ∧ ¬ List.Nodup [("aaaa").toList, ("aaaa").toList] :=
  ⟨rfl, by decide⟩

/-- `line.splitn(2, ": ")` on a line `"References: " ++ v` always yields the
key `"References"` and the value `v`. -/
theorem splitn2_references_line (v : Str) :
    splitn2 colonSpace (("References: ").toList ++ v) = (("References").toList, some v) := by
  simp [splitn2, splitFirstSub, List.isPrefixOf, colonSpace]

/-- Claim C6 (amended): `handle_narinfo` returns the parsed references as a
list (a Rust `Vec`) with one entry per References token — each token reduced
to its part before the first `-` — and duplicate identifiers are NOT removed:
two tokens with the same content before their first `-` yield two equal
entries.  (Deduplication happens only in the scheduler, whose `HashSet`s
absorb the duplicates.) -/
theorem references_returned_per_token :
    (∀ st val, parseLine st (("References: ").toList ++ val)
        = .ok { st with references :=
            (splitWs val).filterMap (fun x => (splitOnChar '-' x).head?) })
    ∧ (handle_narinfo (fun _ => []) dupRefsEnv (("c").toList) [] (("h").toList) dupRefsFs).map
        (fun pr => okValue? pr.1)
        = some (some [("aaaa").toList, ("aaaa").toList]) := by
  refine ⟨?_, rfl⟩
  intro st val
  simp only [parseLine, splitn2_references_line]
  rw [if_pos trivial, if_neg (by decide)]

/-- Claim C10 (confirmed): the local-presence check of `handle_narinfo` is
"opens successfully", not "exists" — for BOTH files.  First half: when the
narinfo file exists at its path but opening it fails, `handle_narinfo` takes
the download branch and the downloaded content atomically replaces the
unreadable file.  Second half: when the narinfo opens fine but the content
blob exists at its path and opening IT fails, `handle_narinfo` re-downloads
the blob — with the parsed digest as the expected hash — and the downloaded
content atomically replaces the unreadable blob. -/
theorem open_failure_triggers_redownload :
    (∀ (hashFn : Str → Str) (env : HnEnv) (cache_url : Str) (mirror_dir : FsPath)
        (narinfo_hash : Str) (fs : Fs) (oldContent c u fh blob : Str)
        (refs : List Str) (out : DlOutcome),
      fs (narinfoPath mirror_dir narinfo_hash) = some oldContent →
      env.openFails (narinfoPath mirror_dir narinfo_hash) = true →
      download_atomically hashFn env.dlNarinfo (narinfoUrl cache_url narinfo_hash)
          (narinfoPath mirror_dir narinfo_hash) none fs = some out →
      out.result = .ok c →
      parseNarinfo (rustLines c) = .ok (u, refs, fh) →
      env.openFails (narFilePath mirror_dir u) = false →
      out.fs (narFilePath mirror_dir u) = some blob →
      handle_narinfo hashFn env cache_url mirror_dir narinfo_hash fs
          = some (.ok refs, out.fs)
      ∧ out.fs (narinfoPath mirror_dir narinfo_hash) = some c)
    ∧ (∀ (hashFn : Str → Str) (env : HnEnv) (cache_url : Str) (mirror_dir : FsPath)
        (narinfo_hash : Str) (fs : Fs) (content u fh oldBlob c2 : Str)
        (refs : List Str) (out2 : DlOutcome),
      env.openFails (narinfoPath mirror_dir narinfo_hash) = false →
      fs (narinfoPath mirror_dir narinfo_hash) = some content →
      parseNarinfo (rustLines content) = .ok (u, refs, fh) →
      fs (narFilePath mirror_dir u) = some oldBlob →
      env.openFails (narFilePath mirror_dir u) = true →
      download_atomically hashFn env.dlNar (narUrl cache_url u)
          (narFilePath mirror_dir u) (some fh) fs = some out2 →
      out2.result = .ok c2 →
      handle_narinfo hashFn env cache_url mirror_dir narinfo_hash fs
          = some (.ok refs, out2.fs)
      ∧ out2.fs (narFilePath mirror_dir u) = some c2) := by
  constructor
  · intro hashFn env cache_url mirror_dir narinfo_hash fs oldContent c u fh blob refs out
      hexists hopen hdl hres hparse hopen2 hblob
    have hfs := download_atomically_ok hashFn env.dlNarinfo
      (narinfoUrl cache_url narinfo_hash) (narinfoPath mirror_dir narinfo_hash) none fs
      out c hdl hres
    have hopen1 : openFile env.openFails fs (narinfoPath mirror_dir narinfo_hash) = none := by
      rw [openFile, hopen]
      simp
    have hstep1 : hnStep1 hashFn env cache_url mirror_dir narinfo_hash fs
        = some (out.result, out.fs) := by
      rw [hnStep1, hopen1, hdl]
    have hopen2' : openFile env.openFails out.fs (narFilePath mirror_dir u) = some blob := by
      rw [openFile, hopen2]
      simpa using hblob
    refine ⟨?_, hfs.1⟩
    rw [handle_narinfo, hstep1, hres]
    dsimp only
    rw [hparse]
    dsimp only
    rw [hopen2']
  · intro hashFn env cache_url mirror_dir narinfo_hash fs content u fh oldBlob c2 refs out2
      hopen1 hfs1 hparse hblob hopen2 hdl hres
    have hfs := download_atomically_ok hashFn env.dlNar (narUrl cache_url u)
      (narFilePath mirror_dir u) (some fh) fs out2 c2 hdl hres
    have hopenN : openFile env.openFails fs (narinfoPath mirror_dir narinfo_hash)
        = some content := by
      rw [openFile, hopen1]
      simpa using hfs1
    have hstep1 : hnStep1 hashFn env cache_url mirror_dir narinfo_hash fs
        = some (.ok content, fs) := by
      rw [hnStep1, hopenN]
    have hopenB : openFile env.openFails fs (narFilePath mirror_dir u) = none := by
      rw [openFile, hopen2]
      simp
    refine ⟨?_, hfs.1⟩
    rw [handle_narinfo, hstep1]
    dsimp only
    rw [hparse]
    dsimp only
    rw [hopenB, hdl]
    dsimp only
    rw [hres]

/-- Concrete data for the first half of `open_failure_triggers_redownload`:
a narinfo that exists on disk but cannot be opened, and a successful
re-download of it. -/
def rdContent : Str := ("URL: u\nFileHash: s:d\n").toList

def rdFs : Fs := fun p =>
  if p = narinfoPath [] (("h").toList) then some (("old").toList)
  else if p = [("u").toList] then some (("blob").toList)
  else none

def rdEnv : HnEnv :=
  ⟨fun p => p = narinfoPath [] (("h").toList),
   ⟨.ok [.ok rdContent], true, true, true, true⟩,
   ⟨.error "unused", true, true, true, true⟩⟩

def rdOut : DlOutcome :=
  (download_atomically (fun _ => []) rdEnv.dlNarinfo
      (narinfoUrl (("c").toList) (("h").toList))
      (narinfoPath [] (("h").toList)) none rdFs).getD
    ⟨.error "", fun _ => none, true⟩

/-- Concrete data for the second half: a readable narinfo, and a nar archive
that exists on disk but cannot be opened, re-downloaded with the digest check
(the model hash of the new blob equals the parsed digest `"d"`). -/
def rbFs : Fs := fun p =>
  if p = narinfoPath [] (("h").toList) then some rdContent
  else if p = [("u").toList] then some (("oldblob").toList)
  else none

def rbEnv : HnEnv :=
  ⟨fun p => p = [("u").toList],
   ⟨.error "unused", true, true, true, true⟩,
   ⟨.ok [.ok (("newblob").toList)], true, true, true, true⟩⟩

def rbOut : DlOutcome :=
  (download_atomically (fun _ => ("d").toList) rbEnv.dlNar
      (narUrl (("c").toList) (("u").toList))
      (narFilePath [] (("u").toList)) (some (("d").toList)) rbFs).getD
    ⟨.error "", fun _ => none, true⟩

/-- Instantiation of both halves of `open_failure_triggers_redownload` at the
concrete data. -/
theorem open_failure_triggers_redownload_inst :
    (handle_narinfo (fun _ => []) rdEnv (("c").toList) [] (("h").toList) rdFs
        = some (.ok [], rdOut.fs)
     ∧ rdOut.fs (narinfoPath [] (("h").toList)) = some rdContent)
    ∧ (handle_narinfo (fun _ => ("d").toList) rbEnv (("c").toList) [] (("h").toList) rbFs
        = some (.ok [], rbOut.fs)
     ∧ rbOut.fs (narFilePath [] (("u").toList)) = some (("newblob").toList)) :=
  ⟨open_failure_triggers_redownload.1 (fun _ => []) rdEnv (("c").toList) [] (("h").toList)
     rdFs (("old").toList) rdContent (("u").toList) (("d").toList) (("blob").toList) []
     rdOut rfl rfl rfl rfl rfl rfl rfl,
   open_failure_triggers_redownload.2 (fun _ => ("d").toList) rbEnv (("c").toList) []
     (("h").toList) rbFs rdContent (("u").toList) (("d").toList) (("oldblob").toList)
     (("newblob").toList) [] rbOut rfl rfl rfl rfl rfl rfl rfl⟩

/-! ## The frontier scheduler (`src/main.rs`, the wave loop of `main`)

`current_narinfo_hashes` and `processed_narinfo_hashes` are `HashSet<String>`,
modelled as `Finset String`.  One wave drains the current set (pushing one
`handle_narinfo` future per identifier and inserting each into the processed
set), then extends the — now empty — current set with every returned
reference that is not in the processed set.  The references returned by one
resolution are a `Vec` (`refs : String → List String`); extending a `HashSet`
with them absorbs duplicates, so the next frontier is a `Finset` again. -/

/-- The processed set after one wave: the drain loop inserts every element of
the current frontier. -/
def nextSeen (cur seen : Finset String) : Finset String := seen ∪ cur

/-- The frontier after one wave: every reference returned by the wave's
resolutions that is not in the processed set (which at filter time already
contains the whole drained frontier). -/
def nextCur (refs : String → List String) (cur seen : Finset String) : Finset String :=
  (cur.biUnion fun x => (refs x).toFinset) \ (seen ∪ cur)

/-- The `while !current_narinfo_hashes.is_empty()` loop, with fuel: the
frontier and processed set after at most `n` waves. -/
def schedRun (refs : String → List String) :
    Nat → Finset String → Finset String → Finset String × Finset String
  | 0, cur, seen => (cur, seen)
  | n + 1, cur, seen =>
    if cur = ∅ then (cur, seen)
    else schedRun refs n (nextCur refs cur seen) (nextSeen cur seen)

/-- The sequence of frontiers actually drained by the loop (one entry per
executed wave): the identifiers `handle_narinfo` is invoked on, wave by
wave. -/
def schedWaves (refs : String → List String) :
    Nat → Finset String → Finset String → List (Finset String)
  | 0, _, _ => []
  | n + 1, cur, seen =>
    if cur = ∅ then []
    else cur :: schedWaves refs n (nextCur refs cur seen) (nextSeen cur seen)

/-- One dependency edge: `b` is among the references returned for `a`. -/
def RefStep (refs : String → List String) (a b : String) : Prop := b ∈ refs a

/-- `x` is reachable from the root set through dependency references. -/
def Reachable (refs : String → List String) (roots : Finset String) (x : String) : Prop :=
  ∃ r ∈ roots, Relation.ReflTransGen (RefStep refs) r x

theorem nextSeen_subset (cur seen : Finset String) : seen ⊆ nextSeen cur seen :=
  Finset.subset_union_left

theorem nextCur_disjoint (refs : String → List String) (cur seen : Finset String) :
    Disjoint (nextCur refs cur seen) (nextSeen cur seen) :=
  Finset.sdiff_disjoint

theorem schedWaves_disjoint_seen (refs : String → List String) :
    ∀ (n : Nat) (cur seen : Finset String), Disjoint cur seen →
      ∀ w ∈ schedWaves refs n cur seen, Disjoint w seen := by
  intro n
  induction n with
  | zero => intro cur seen _ w hw; simp [schedWaves] at hw
  | succ n ih =>
    intro cur seen hdisj w hw
    rw [schedWaves] at hw
    by_cases hc : cur = ∅
    · rw [if_pos hc] at hw; simp at hw
    · rw [if_neg hc] at hw
      rcases List.mem_cons.mp hw with hw | hw
      · exact hw ▸ hdisj
      · have hrec := ih (nextCur refs cur seen) (nextSeen cur seen)
          (nextCur_disjoint refs cur seen) w hw
        exact Finset.disjoint_of_subset_right (nextSeen_subset cur seen) hrec

theorem schedWaves_pairwise (refs : String → List String) :
    ∀ (n : Nat) (cur seen : Finset String), Disjoint cur seen →
      (schedWaves refs n cur seen).Pairwise Disjoint := by
  intro n
  induction n with
  | zero => intro cur seen _; simp [schedWaves]
  | succ n ih =>
    intro cur seen hdisj
    rw [schedWaves]
    by_cases hc : cur = ∅
    · rw [if_pos hc]; exact List.Pairwise.nil
    · rw [if_neg hc]
      refine List.Pairwise.cons ?_ (ih _ _ (nextCur_disjoint refs cur seen))
      intro w hw
      have h1 := schedWaves_disjoint_seen refs n (nextCur refs cur seen)
        (nextSeen cur seen) (nextCur_disjoint refs cur seen) w hw
      exact (Finset.disjoint_of_subset_right
        (Finset.subset_union_right) h1).symm

theorem countP_eq_one_of_pairwise_disjoint (x : String) :
    ∀ (ws : List (Finset String)), ws.Pairwise Disjoint →
      (∃ w ∈ ws, x ∈ w) → ws.countP (fun w => x ∈ w) = 1 := by
  intro ws
  induction ws with
  | nil => intro _ h; simp at h
  | cons w ws ih =>
    intro hpw hex
    have hpw' := List.Pairwise.of_cons hpw
    by_cases hx : x ∈ w
    · have hzero : ws.countP (fun w => x ∈ w) = 0 := by
        rw [List.countP_eq_zero]
        intro v hv
        have hd := (List.pairwise_cons.mp hpw).1 v hv
        simpa using Finset.disjoint_left.mp hd hx
      rw [List.countP_cons]
      simp [hx, hzero]
    · rcases hex with ⟨v, hv, hxv⟩
      rcases List.mem_cons.mp hv with rfl | hv'
      · exact absurd hxv hx
      · rw [List.countP_cons]
        simp [hx]
        exact ih hpw' ⟨v, hv', hxv⟩

theorem schedRun_seen_origin (refs : String → List String) :
    ∀ (n : Nat) (cur seen : Finset String) (y : String),
      y ∈ (schedRun refs n cur seen).2 →
      y ∈ seen ∨ ∃ w ∈ schedWaves refs n cur seen, y ∈ w := by
  intro n
  induction n with
  | zero => intro cur seen y hy; exact .inl hy
  | succ n ih =>
    intro cur seen y hy
    rw [schedRun] at hy
    rw [schedWaves]
    by_cases hc : cur = ∅
    · rw [if_pos hc] at hy
      exact .inl hy
    · rw [if_neg hc] at hy
      rw [if_neg hc]
      rcases ih (nextCur refs cur seen) (nextSeen cur seen) y hy with hy' | ⟨w, hw, hyw⟩
      · rcases Finset.mem_union.mp hy' with hy'' | hy''
        · exact .inl hy''
        · exact .inr ⟨cur, List.mem_cons_self cur _, hy''⟩
      · exact .inr ⟨w, List.mem_cons_of_mem cur hw, hyw⟩

/-- The closure invariant of the loop: every reference of a processed
identifier is either processed already or in the current frontier. -/
def SeenClosed (refs : String → List String) (cur seen : Finset String) : Prop :=
  ∀ y ∈ seen, ∀ z ∈ refs y, z ∈ seen ∪ cur

theorem seenClosed_step (refs : String → List String) (cur seen : Finset String)
    (h : SeenClosed refs cur seen) :
    SeenClosed refs (nextCur refs cur seen) (nextSeen cur seen) := by
  intro y hy z hz
  rcases Finset.mem_union.mp hy with hy' | hy'
  · have := h y hy' z hz
    exact Finset.mem_union_left _ (by rwa [nextSeen])
  · by_cases hzs : z ∈ seen ∪ cur
    · exact Finset.mem_union_left _ (by rwa [nextSeen])
    · refine Finset.mem_union_right _ ?_
      rw [nextCur, Finset.mem_sdiff]
      exact ⟨Finset.mem_biUnion.mpr ⟨y, hy', List.mem_toFinset.mpr hz⟩, hzs⟩

theorem schedRun_closed (refs : String → List String) :
    ∀ (n : Nat) (cur seen : Finset String), SeenClosed refs cur seen →
      (schedRun refs n cur seen).1 = ∅ →
      ∀ y ∈ (schedRun refs n cur seen).2, ∀ z ∈ refs y,
        z ∈ (schedRun refs n cur seen).2 := by
  intro n
  induction n with
  | zero =>
    intro cur seen hcl hterm y hy z hz
    have hc : cur = ∅ := hterm
    have hmem : z ∈ seen ∪ cur := hcl y hy z hz
    rw [hc] at hmem
    simpa using hmem
  | succ n ih =>
    intro cur seen hcl hterm y hy z hz
    rw [schedRun] at hterm hy ⊢
    by_cases hc : cur = ∅
    · rw [if_pos hc] at hterm hy ⊢
      have hmem : z ∈ seen ∪ cur := hcl y hy z hz
      rw [show cur = ∅ from hterm] at hmem
      simpa using hmem
    · rw [if_neg hc] at hterm hy ⊢
      exact ih _ _ (seenClosed_step refs cur seen hcl) hterm y hy z hz

theorem schedRun_subset (refs : String → List String) :
    ∀ (n : Nat) (cur seen : Finset String),
      cur ∪ seen ⊆ (schedRun refs n cur seen).1 ∪ (schedRun refs n cur seen).2 := by
  intro n
  induction n with
  | zero => intro cur seen; exact Finset.Subset.refl _
  | succ n ih =>
    intro cur seen
    rw [schedRun]
    by_cases hc : cur = ∅
    · rw [if_pos hc]
    · rw [if_neg hc]
      refine Finset.Subset.trans ?_ (ih (nextCur refs cur seen) (nextSeen cur seen))
      intro a ha
      refine Finset.mem_union_right _ ?_
      rw [nextSeen]
      rw [Finset.union_comm] at ha
      exact ha

theorem reachable_in_final_seen (refs : String → List String) (roots : Finset String)
    (n : Nat) (hterm : (schedRun refs n roots ∅).1 = ∅) (x : String)
    (hx : Reachable refs roots x) : x ∈ (schedRun refs n roots ∅).2 := by
  obtain ⟨r, hr, hpath⟩ := hx
  have hroots : roots ⊆ (schedRun refs n roots ∅).2 := by
    intro a ha
    have h1 := schedRun_subset refs n roots ∅ (Finset.mem_union_left _ ha)
    rw [hterm] at h1
    simpa using h1
  have hclosed := schedRun_closed refs n roots ∅ (fun y hy => by simp at hy) hterm
  induction hpath with
  | refl => exact hroots hr
  | tail _ hstep ih => exact hclosed _ ih _ hstep

/-- Claim C3 (confirmed): in a completed run, `handle_narinfo` is invoked for
every reachable identifier in exactly one wave (the waves an identifier could
be scheduled in are pairwise disjoint, because a scheduled identifier is in
the processed set from then on); the frontier produced by a wave never
overlaps the processed set, and the processed set only ever grows. -/
theorem resolver_invoked_exactly_once (refs : String → List String)
    (roots : Finset String) (x : String) (n : Nat)
    (hterm : (schedRun refs n roots ∅).1 = ∅)
    (hreach : Reachable refs roots x) :
    (schedWaves refs n roots ∅).countP (fun w => x ∈ w) = 1
    ∧ (∀ cur seen : Finset String,
        Disjoint (nextCur refs cur seen) (nextSeen cur seen))
    ∧ (∀ cur seen : Finset String, seen ⊆ nextSeen cur seen) := by
  refine ⟨?_, fun cur seen => nextCur_disjoint refs cur seen,
    fun cur seen => nextSeen_subset cur seen⟩
  have hx := reachable_in_final_seen refs roots n hterm x hreach
  rcases schedRun_seen_origin refs n roots ∅ x hx with hx' | hex
  · simp at hx'
  · exact countP_eq_one_of_pairwise_disjoint x _
      (schedWaves_pairwise refs n roots ∅ (Finset.disjoint_empty_right roots)) hex

/-- Instantiation of `resolver_invoked_exactly_once` on the two-node graph
`"a" → "b"`. -/
theorem resolver_invoked_exactly_once_inst :
    (schedWaves (fun v => if v = "a" then ["b"] else []) 3 {"a"} ∅).countP
        (fun w => "b" ∈ w) = 1 :=
  (resolver_invoked_exactly_once (fun v => if v = "a" then ["b"] else [])
    {"a"} "b" 3 (by decide)
    ⟨"a", by decide,
      Relation.ReflTransGen.single (show "b" ∈ (if "a" = "a" then ["b"] else []) by decide)⟩).1

/-- A dependency chain, newest node first: `RChain refs roots (x_k :: … :: x_0)`
means `x_0` is a root and each node is among the references of its
predecessor. -/
inductive RChain (refs : String → List String) (roots : Finset String) :
    List String → Prop
  | base (x : String) : x ∈ roots → RChain refs roots [x]
  | step (y x : String) (l : List String) :
      RChain refs roots (x :: l) → y ∈ refs x → RChain refs roots (y :: x :: l)

/-- Invariant after `k` waves: the frontier is disjoint from the processed
set, and every frontier identifier is the endpoint of a duplicate-free
dependency chain of `k + 1` nodes whose earlier nodes are all processed. -/
def ChainInv (refs : String → List String) (roots : Finset String) (k : Nat)
    (cur seen : Finset String) : Prop :=
  Disjoint cur seen ∧
  ∀ x ∈ cur, ∃ l, RChain refs roots (x :: l) ∧ (x :: l).Nodup ∧
    (x :: l).length = k + 1 ∧ ∀ y ∈ l, y ∈ seen

theorem chainInv_step (refs : String → List String) (roots : Finset String)
    (k : Nat) (cur seen : Finset String) (h : ChainInv refs roots k cur seen) :
    ChainInv refs roots (k + 1) (nextCur refs cur seen) (nextSeen cur seen) := by
  refine ⟨nextCur_disjoint refs cur seen, ?_⟩
  intro z hz
  rw [nextCur, Finset.mem_sdiff] at hz
  obtain ⟨hzb, hzs⟩ := hz
  obtain ⟨x, hx, hzx⟩ := Finset.mem_biUnion.mp hzb
  have hzx' : z ∈ refs x := List.mem_toFinset.mp hzx
  obtain ⟨l, hch, hnd, hlen, hsub⟩ := h.2 x hx
  refine ⟨x :: l, RChain.step z x l hch hzx', ?_, ?_, ?_⟩
  · refine List.nodup_cons.mpr ⟨?_, hnd⟩
    intro hzin
    rcases List.mem_cons.mp hzin with rfl | hzl
    · exact hzs (Finset.mem_union_right _ hx)
    · exact hzs (Finset.mem_union_left _ (hsub z hzl))
  · simpa using hlen
  · intro y hy
    rcases List.mem_cons.mp hy with rfl | hyl
    · exact Finset.mem_union_right _ hx
    · exact Finset.mem_union_left _ (hsub y hyl)

theorem chainInv_empty (refs : String → List String) (roots : Finset String)
    (L : Nat) (hchain : ∀ l, RChain refs roots l → l.Nodup → l.length ≤ L) :
    ∀ (m k : Nat) (cur seen : Finset String), ChainInv refs roots k cur seen →
      L ≤ k + m → (schedRun refs m cur seen).1 = ∅ := by
  intro m
  induction m with
  | zero =>
    intro k cur seen hinv hL
    rcases Finset.eq_empty_or_nonempty cur with hc | ⟨x, hx⟩
    · exact hc
    · obtain ⟨l, hch, hnd, hlen, _⟩ := hinv.2 x hx
      have := hchain (x :: l) hch hnd
      omega
  | succ m ih =>
    intro k cur seen hinv hL
    rw [schedRun]
    by_cases hc : cur = ∅
    · rw [if_pos hc]; exact hc
    · rw [if_neg hc]
      exact ih (k + 1) _ _ (chainInv_step refs roots k cur seen hinv) (by omega)

theorem chainInv_waves_length (refs : String → List String) (roots : Finset String)
    (L : Nat) (hchain : ∀ l, RChain refs roots l → l.Nodup → l.length ≤ L) :
    ∀ (n k : Nat) (cur seen : Finset String), ChainInv refs roots k cur seen →
      (schedWaves refs n cur seen).length ≤ L - k := by
  intro n
  induction n with
  | zero => intro k cur seen _; simp [schedWaves]
  | succ n ih =>
    intro k cur seen hinv
    rw [schedWaves]
    by_cases hc : cur = ∅
    · rw [if_pos hc]; simp
    · rw [if_neg hc]
      obtain ⟨x, hx⟩ := Finset.nonempty_iff_ne_empty.mpr hc
      obtain ⟨l, hch, hnd, hlen, _⟩ := hinv.2 x hx
      have hkL : k + 1 ≤ L := by
        have := hchain (x :: l) hch hnd
        omega
      have hrec := ih (k + 1) _ _ (chainInv_step refs roots k cur seen hinv)
      rw [List.length_cons]
      omega

theorem chainInv_init (refs : String → List String) (roots : Finset String) :
    ChainInv refs roots 0 roots ∅ := by
  refine ⟨Finset.disjoint_empty_right roots, ?_⟩
  intro x hx
  exact ⟨[], RChain.base x hx, List.nodup_singleton x, rfl, by simp⟩

/-- Claim C8 (confirmed): when every duplicate-free dependency chain rooted in
the root set has at most `L` nodes (the graph's longest dependency chain
length), the wave loop empties its frontier within `L` waves, and no run ever
executes more than `L` waves. -/
theorem wave_loop_terminates (refs : String → List String) (roots : Finset String)
    (L : Nat) (hchain : ∀ l, RChain refs roots l → l.Nodup → l.length ≤ L) :
    (schedRun refs L roots ∅).1 = ∅
    ∧ ∀ n, (schedWaves refs n roots ∅).length ≤ L := by
  constructor
  · exact chainInv_empty refs roots L hchain L 0 roots ∅
      (chainInv_init refs roots) (by omega)
  · intro n
    have := chainInv_waves_length refs roots L hchain n 0 roots ∅
      (chainInv_init refs roots)
    omega

/-- Instantiation of `wave_loop_terminates` on the graph with no references at
all and root set `{"a"}` (longest chain: one node). -/
theorem wave_loop_terminates_inst :
    (schedRun (fun _ => []) 1 {"a"} ∅).1 = ∅
    ∧ (schedWaves (fun _ => []) 5 {"a"} ∅).length ≤ 1 :=
  have hchain : ∀ l, RChain (fun _ => []) ({"a"} : Finset String) l →
      l.Nodup → l.length ≤ 1 := by
    intro l hl _
    cases hl with
    | base x hx => simp
    | step y x l hch hy => simp at hy
  ⟨(wave_loop_terminates (fun _ => []) {"a"} 1 hchain).1,
   (wave_loop_terminates (fun _ => []) {"a"} 1 hchain).2 5⟩
